import Mathlib

/-!
# Verification of the bitcesque key/value store

A shallow embedding of the core of the `bitcesque` repository (an
append-only-log key/value store in the style of Riak's Bitcask) together
with proofs and refutations of its specification claims.

Conventions of the embedding:

* A byte is a `Nat` (real bytes are `< 256`; theorems add that hypothesis
  where the value of a byte matters to a bitwise computation).
* Go `[]byte` and `string` keys/values are `List Nat`.
* Files are `List Nat`: the data file and the companion `.keys` file.
* The read-only memory map over the data file is modelled by `bufRead`:
  reading `n` bytes starting at `off` yields the file bytes in range and
  byte `0` beyond the end of the file (the mmap is sized far beyond the
  file, and pages beyond the written region read as zero).
* `uint32`/`uint64` conversions are `% 2^32` / `% 2^64` on `Nat`.
* The Go `map[string]offsetAndLength` is an association list with
  distinct keys; insertion overwrites, iteration order is the list order
  (the Go map's iteration order is unspecified, and every property proved
  here is insensitive to it).
-/

namespace Bitcesque

/-! ## Byte-level helpers (bitshift.go)

`uint32ToBytes` writes `val & 0xff, (val >> 8) & 0xff, (val >> 16) & 0xff,
(val >> 24) & 0xff`; since `(x >>> (8*i)) &&& 0xff = x / 2^(8*i) % 256`,
the little-endian encodings below are that computation on `Nat`.
`uint32FromBytes` computes the bitwise-or of the four bytes shifted into
disjoint positions, which for byte values (`< 256`) equals the sum of the
bytes scaled by `2^(8*i)`. -/

/-- Little-endian 4-byte encoding (bitshift.go `uint32ToBytes`). -/
def le32 (n : Nat) : List Nat :=
  [n % 256, n / 256 % 256, n / 65536 % 256, n / 16777216 % 256]

/-- Little-endian 8-byte encoding (bitshift.go `uint64ToBytes`). -/
def le64 (n : Nat) : List Nat :=
  [n % 256, n / 256 % 256, n / 65536 % 256, n / 16777216 % 256,
   n / 4294967296 % 256, n / 1099511627776 % 256,
   n / 281474976710656 % 256, n / 72057594037927936 % 256]

/-- Decode a little-endian `uint32` at index `idx` (bitshift.go
`uint32FromBytes`).  Out-of-file indices read `0`, modelling the
zero-filled memory map beyond the file's logical length. -/
def uint32FromBytes (targ : List Nat) (idx : Nat) : Nat :=
  targ.getD idx 0 + targ.getD (idx+1) 0 * 256 +
    targ.getD (idx+2) 0 * 65536 + targ.getD (idx+3) 0 * 16777216

/-- Decode a little-endian `uint64` at index `idx` (bitshift.go
`uint64FromBytes`). -/
def uint64FromBytes (targ : List Nat) (idx : Nat) : Nat :=
  targ.getD idx 0 + targ.getD (idx+1) 0 * 256 +
    targ.getD (idx+2) 0 * 65536 + targ.getD (idx+3) 0 * 16777216 +
    targ.getD (idx+4) 0 * 4294967296 + targ.getD (idx+5) 0 * 1099511627776 +
    targ.getD (idx+6) 0 * 281474976710656 +
    targ.getD (idx+7) 0 * 72057594037927936

/-- Read `n` bytes of the memory-mapped file starting at `off`; bytes
beyond the file's logical length read as `0` (the map is sized far past
the file).  Models Go slicing of the mmap, e.g. `mmap[off : off+n]`. -/
def bufRead (file : List Nat) (off : Nat) : Nat → List Nat
  | 0 => []
  | n+1 => file.getD off 0 :: bufRead file (off+1) n

/-! ## CRC-32C (hash/crc32, Castagnoli table)

Go's `crc32.Checksum(data, crcTable)` with the Castagnoli table computes
the reflected CRC-32C: initial value `0xFFFFFFFF`, per input byte XOR the
byte into the low bits and run eight shift-and-conditionally-XOR rounds
with the reflected polynomial `0x82F63B78`, final XOR `0xFFFFFFFF`. -/

/-- One shift round of reflected CRC-32C. -/
def crc32cStep (c : Nat) : Nat :=
  if c % 2 = 1 then (c / 2) ^^^ 0x82F63B78 else c / 2

/-- Iterate `crc32cStep`. -/
def crc32cRounds : Nat → Nat → Nat
  | 0, c => c
  | n+1, c => crc32cRounds n (crc32cStep c)

/-- Absorb one input byte into a CRC-32C state. -/
def crc32cByte (c b : Nat) : Nat := crc32cRounds 8 (c ^^^ (b % 256))

/-- CRC-32C (Castagnoli) of a byte string, as computed by
`crc32.Checksum(data, crcTable)` in document.go. -/
def crc32c (msg : List Nat) : Nat :=
  (msg.foldl crc32cByte 0xFFFFFFFF) ^^^ 0xFFFFFFFF

/-! ## Record codec (document.go) -/

/-- In-memory value pointer (document.go `offsetAndLength`): points
directly at the value field of a record in the data file. -/
structure OffsetAndLength where
  offset : Nat
  length : Nat
deriving DecidableEq, Repr

/-- Keys and values are byte strings. -/
abbrev Bytes := List Nat

/-- The byte representation of a document, including the header
(document.go `newDocument`): 4-byte checksum over everything after it,
4-byte little-endian key length, 4-byte little-endian value length, then
key and value bytes.  Empty `v` is a tombstone. -/
def newDocument (k v : Bytes) : Bytes :=
  le32 (crc32c (le32 k.length ++ le32 v.length ++ k ++ v)) ++
    le32 k.length ++ le32 v.length ++ k ++ v

/-- The value pointer for document `(k, v)` were it inserted at position
`pos` (document.go `getOAL`).  The length is the Go `uint32(len(v))`. -/
def getOAL (pos : Nat) (k v : Bytes) : OffsetAndLength :=
  ⟨pos + 12 + k.length, v.length % 4294967296⟩

/-- Checksum verification of a whole document slice (document.go
`checkDocument`): the stored checksum equals CRC-32C of bytes `[4, end)`. -/
def checkDocument (b : Bytes) : Bool :=
  uint32FromBytes b 0 == crc32c (b.drop 4)

/-! ## The in-memory index

A Go `map[string]offsetAndLength`, modelled as an association list with
distinct keys. -/

/-- Map lookup: `oal, present := m[k]`. -/
def lookupKV (m : List (Bytes × OffsetAndLength)) (k : Bytes) :
    Option OffsetAndLength :=
  match m.find? (fun e => e.1 == k) with
  | some e => some e.2
  | none => none

/-- Map insert/overwrite: `m[k] = v`. -/
def insertKV (m : List (Bytes × OffsetAndLength)) (k : Bytes)
    (v : OffsetAndLength) : List (Bytes × OffsetAndLength) :=
  m.filter (fun e => ¬ (e.1 = k)) ++ [(k, v)]

/-- Map deletion: `delete(m, k)`. -/
def eraseKV (m : List (Bytes × OffsetAndLength)) (k : Bytes) :
    List (Bytes × OffsetAndLength) :=
  m.filter (fun e => ¬ (e.1 = k))

/-! ## The database handle (data.go `DB`)

The handle owns the index, the write position `filledSize`, and — through
its location — the data file and the companion `.keys` file.  The mutex
and the file/mmap handles have no observable content beyond the bytes of
the two files, which the model carries directly. -/

structure DB where
  kToPos : List (Bytes × OffsetAndLength)
  filledSize : Nat
  file : Bytes
  keyfile : Bytes
deriving DecidableEq, Repr

/-- The two on-disk artifacts at a location: the data file and the
companion key snapshot `<location>.keys`. -/
structure Disk where
  data : Bytes
  keys : Bytes
deriving DecidableEq, Repr

/-- `NewDB` at a fresh location (data.go): truncate-create the data file,
empty index, write position 0.  (`NewDB` does not touch the `.keys`
file; at a fresh location it is absent, i.e. empty.) -/
def newDB : DB := ⟨[], 0, [], []⟩

/-- The value bytes at a pointer (document.go `getValAtOAL`):
`d.filebuffer[oal.offset : oal.offset+oal.length]`. -/
def DB.getValAtOAL (d : DB) (oal : OffsetAndLength) : Bytes :=
  bufRead d.file oal.offset oal.length

/-- `Upsert` with the outcome of the underlying file append made explicit
(document.go `Upsert`).  The source discards the result of
`d.filehandle.Write(doc)` and updates the index and the write position
unconditionally; only the file's actual growth depends on the write
having succeeded.  `Upsert` returns no error. -/
def DB.upsertW (d : DB) (k v : Bytes) (writeOk : Bool) : DB :=
  let doc := newDocument k v
  { d with
    kToPos := insertKV d.kToPos k (getOAL d.filledSize k v),
    file := if writeOk then d.file ++ doc else d.file,
    filledSize := d.filledSize + doc.length }

/-- `Upsert` when the append succeeds. -/
def DB.upsert (d : DB) (k v : Bytes) : DB := d.upsertW k v true

/-- `Remove` with the outcome of the underlying file append made explicit
(document.go `Remove`): append a tombstone document, delete the key from
the index.  The source does not advance `filledSize` and discards the
result of the write; `Remove` returns no error. -/
def DB.removeW (d : DB) (k : Bytes) (writeOk : Bool) : DB :=
  let doc := newDocument k []
  { d with
    kToPos := eraseKV d.kToPos k,
    file := if writeOk then d.file ++ doc else d.file }

/-- `Remove` when the append succeeds. -/
def DB.remove (d : DB) (k : Bytes) : DB := d.removeW k true

/-- `Get` (document.go): look the key up in the index and read the value
through the memory map. -/
def DB.get (d : DB) (k : Bytes) : Bytes × Bool :=
  match lookupKV d.kToPos k with
  | none => ([], false)
  | some oal => (d.getValAtOAL oal, true)

/-- `Contains` (document.go): a pure index lookup. -/
def DB.contains (d : DB) (k : Bytes) : Bool :=
  (lookupKV d.kToPos k).isSome

/-! ## Consolidation (document.go `Consolidate`)

The loop over the index: for each entry read the value through the memory
map, encode a fresh document, append it to the temporary file, and record
the entry's new pointer; afterwards the temporary file replaces the data
file and the fresh index and write position are swapped in. -/

/-- The body of `Consolidate`'s loop, iterating over the entries of the
index: accumulates the new index `mNew`, the position `pos` in the
temporary file, and the temporary file's bytes. -/
def consolLoop (d : DB) :
    List (Bytes × OffsetAndLength) → List (Bytes × OffsetAndLength) →
      Nat → Bytes → List (Bytes × OffsetAndLength) × Nat × Bytes
  | [], mNew, pos, f => (mNew, pos, f)
  | e :: rest, mNew, pos, f =>
    let v := d.getValAtOAL e.2
    let doc := newDocument e.1 v
    consolLoop d rest (insertKV mNew e.1 (getOAL pos e.1 v))
      (pos + doc.length) (f ++ doc)

/-- `Consolidate`: rewrite the backing file to contain only live entries
and swap in the rebuilt index and write position. -/
def DB.consolidate (d : DB) : DB :=
  let r := consolLoop d d.kToPos [] 0 []
  { kToPos := r.1, filledSize := r.2.1, file := r.2.2, keyfile := d.keyfile }

/-! ## Key snapshot file and lifecycle (keyfile.go, data.go) -/

/-- One key snapshot entry (keyfile.go `dumpKeys` loop body): a 16-byte
header `(keyLen:4 LE, valLen:4 LE, valOffset:8 LE)` followed by the key
bytes. -/
def dumpEntry (e : Bytes × OffsetAndLength) : Bytes :=
  le32 e.1.length ++ le32 e.2.length ++ le64 e.2.offset ++ e.1

/-- `dumpKeys` (keyfile.go): the `.keys` file is opened with
`O_CREATE|O_APPEND` and no truncation, so the serialized entries are
appended after any previous contents. -/
def DB.dumpKeys (d : DB) (keys : Bytes) : Bytes :=
  keys ++ (d.kToPos.map dumpEntry).flatten

/-- `Close` (data.go): dump the key snapshot, unmap, close.  The result
is what remains on disk at the location. -/
def DB.close (d : DB) : Disk :=
  ⟨d.file, d.dumpKeys d.keyfile⟩

/-- The scan of `populateKeys` (keyfile.go): walk the `.keys` file,
decoding `(keyLen, valLen, valOffset)` headers and key bytes; later
entries overwrite earlier ones.  Each step consumes at least 16 bytes,
so fuel `mm.length + 1` always suffices. -/
def populateLoop :
    Nat → Bytes → Nat → List (Bytes × OffsetAndLength) →
      List (Bytes × OffsetAndLength)
  | 0, _, _, m => m
  | fuel+1, mm, pos, m =>
    if pos < mm.length then
      let kLen := uint32FromBytes mm pos
      let vLen := uint32FromBytes mm (pos+4)
      let vPos := uint64FromBytes mm (pos+8)
      let k := bufRead mm (pos+16) kLen
      populateLoop fuel mm (pos + 16 + kLen) (insertKV m k ⟨vPos, vLen⟩)
    else m

/-- `populateKeys` (keyfile.go): rebuild the index from the `.keys`
file. -/
def populateKeys (mm : Bytes) : List (Bytes × OffsetAndLength) :=
  populateLoop (mm.length + 1) mm 0 []

/-- `OpenDB` (data.go): fast open — trust the key snapshot, set the
write position to the data file's length, no verification. -/
def openDB (disk : Disk) : DB :=
  ⟨populateKeys disk.keys, disk.data.length, disk.data, disk.keys⟩

/-! ## Verified open (data.go `OpenAndVerifyDB`) -/

/-- The record scan of `OpenAndVerifyDB`: starting at position 0, decode
the key and value lengths at `pos+4` and `pos+8`, verify the checksum of
the slice `[pos, pos+12+kLen+vLen)`; a valid record with `vLen > 0`
yields an index entry at the value payload, a valid tombstone deletes the
key; an invalid record stops the scan, returning the index built so far,
the bad record's position as the write position, and that position as the
corruption report.  Each step consumes at least 12 bytes, so fuel
`file.length + 1` always suffices. -/
def verifyLoop :
    Nat → Bytes → Nat → List (Bytes × OffsetAndLength) →
      List (Bytes × OffsetAndLength) × Nat × Option Nat
  | 0, _, pos, m => (m, pos, none)
  | fuel+1, file, pos, m =>
    if pos < file.length then
      let kLen := uint32FromBytes file (pos+4)
      let vLen := uint32FromBytes file (pos+8)
      let k := bufRead file (pos+12) kLen
      if checkDocument (bufRead file pos (12 + kLen + vLen)) then
        verifyLoop fuel file (pos + 12 + kLen + vLen)
          (if 0 < vLen then insertKV m k ⟨pos + 12 + kLen, vLen⟩
           else eraseKV m k)
      else (m, pos, some pos)
    else (m, pos, none)

/-- `OpenAndVerifyDB` on a data file: the rebuilt index, the resulting
write position, and `some P` when corruption was detected starting at
position `P`. -/
def openAndVerifyDB (file : Bytes) :
    List (Bytes × OffsetAndLength) × Nat × Option Nat :=
  verifyLoop (file.length + 1) file 0 []

/-- The scan of `OpenAndVerifyDB` instrumented with an access monitor:
identical stepping, plus a flag that becomes (and stays) `true` as soon
as an iteration touches a byte at or beyond the file's logical length.
An iteration at `pos` reads the slice `[pos, pos+12+kLen+vLen)` for the
checksum verification (which covers the header and key reads), so it
accesses beyond the logical length exactly when
`file.length < pos + 12 + kLen + vLen`. -/
def verifyLoopAcc :
    Nat → Bytes → Nat → List (Bytes × OffsetAndLength) → Bool →
      (List (Bytes × OffsetAndLength) × Nat × Option Nat) × Bool
  | 0, _, pos, m, acc => ((m, pos, none), acc)
  | fuel+1, file, pos, m, acc =>
    if pos < file.length then
      let kLen := uint32FromBytes file (pos+4)
      let vLen := uint32FromBytes file (pos+8)
      let k := bufRead file (pos+12) kLen
      let acc1 := acc || decide (file.length < pos + 12 + kLen + vLen)
      if checkDocument (bufRead file pos (12 + kLen + vLen)) then
        verifyLoopAcc fuel file (pos + 12 + kLen + vLen)
          (if 0 < vLen then insertKV m k ⟨pos + 12 + kLen, vLen⟩
           else eraseKV m k) acc1
      else ((m, pos, some pos), acc1)
    else ((m, pos, none), acc)

/-- `true` iff the `OpenAndVerifyDB` scan of `file` ever accesses the
mapping at or beyond the file's logical length. -/
def verifyScanOutOfBounds (file : Bytes) : Bool :=
  (verifyLoopAcc (file.length + 1) file 0 [] false).2

/-! ## Record frames

A spec-level view of a data file as a concatenation of record frames,
used to state the recovery claims.  A frame carries an arbitrary stored
checksum, so corrupted records (flipped payload or checksum bytes) are
expressible. -/

/-- One record frame: the stored checksum and the key and value bytes. -/
structure Frame where
  checksum : Nat
  key : Bytes
  val : Bytes
deriving DecidableEq, Repr

/-- The bytes of a frame, per the record layout of §3 of the spec. -/
def encodeFrame (f : Frame) : Bytes :=
  le32 f.checksum ++ le32 f.key.length ++ le32 f.val.length ++ f.key ++ f.val

/-- The on-disk size of a frame: `12 + keyLen + valLen`. -/
def frameSize (f : Frame) : Nat := 12 + f.key.length + f.val.length

/-- A data file as a concatenation of frames. -/
def encodeFrames (fs : List Frame) : Bytes := (fs.map encodeFrame).flatten

/-- A frame is valid iff its stored checksum matches CRC-32C of its
remaining bytes. -/
def frameValid (f : Frame) : Bool := checkDocument (encodeFrame f)

/-- A frame's lengths fit the 4-byte header fields. -/
def frameFits (f : Frame) : Prop :=
  f.key.length < 4294967296 ∧ f.val.length < 4294967296

/-- The effect of one record on the index, per the claim's words: a
record with a value records an entry pointing at its value payload, a
tombstone deletes the key. -/
def applyFrame (m : List (Bytes × OffsetAndLength)) (pos : Nat)
    (f : Frame) : List (Bytes × OffsetAndLength) :=
  if 0 < f.val.length then
    insertKV m f.key ⟨pos + 12 + f.key.length, f.val.length⟩
  else eraseKV m f.key

/-- The index after a sequence of records starting at `pos`: later valid
records supersede earlier ones and tombstones delete keys. -/
def applyFrames (m : List (Bytes × OffsetAndLength)) (pos : Nat) :
    List Frame → List (Bytes × OffsetAndLength)
  | [] => m
  | f :: fs => applyFrames (applyFrame m pos f) (pos + frameSize f) fs

/-- The observable value of key `k`: the value bytes when present. -/
def readVal (m : List (Bytes × OffsetAndLength)) (file : Bytes)
    (k : Bytes) : Option Bytes :=
  (lookupKV m k).map fun o => bufRead file o.offset o.length

/-! ## Lemmas: byte-level helpers -/

theorem bufRead_length (file : Bytes) (off n : Nat) :
    (bufRead file off n).length = n := by
  induction n generalizing off with
  | zero => rfl
  | succ n ih => simp [bufRead, ih]

theorem getD_middle (pre l suf : Bytes) (i : Nat) (h : i < l.length) :
    (pre ++ l ++ suf).getD (pre.length + i) 0 = l.getD i 0 := by
  rw [List.append_assoc, List.getD_eq_getElem?_getD,
    List.getElem?_append_right (Nat.le_add_right _ _)]
  rw [Nat.add_sub_cancel_left, List.getElem?_append_left h,
    List.getD_eq_getElem?_getD]

theorem bufRead_middle (pre l suf : Bytes) :
    bufRead (pre ++ l ++ suf) pre.length l.length = l := by
  induction l generalizing pre with
  | nil => rfl
  | cons a l ih =>
    show (pre ++ (a :: l) ++ suf).getD pre.length 0 ::
        bufRead (pre ++ (a :: l) ++ suf) (pre.length + 1) l.length = a :: l
    have hhd : (pre ++ (a :: l) ++ suf).getD pre.length 0 = a := by
      have := getD_middle pre (a :: l) suf 0 (by simp)
      simpa using this
    have hre : pre ++ (a :: l) ++ suf = (pre ++ [a]) ++ l ++ suf := by simp
    have htl : bufRead (pre ++ (a :: l) ++ suf) (pre.length + 1) l.length
        = l := by
      rw [hre]
      have hlen : pre.length + 1 = (pre ++ [a]).length := by simp
      rw [hlen]
      exact ih (pre ++ [a])
    rw [hhd, htl]

theorem bufRead_append_of_le (file rest : Bytes) (off n : Nat)
    (h : off + n ≤ file.length) :
    bufRead (file ++ rest) off n = bufRead file off n := by
  induction n generalizing off with
  | zero => rfl
  | succ n ih =>
    have h1 : off < file.length := by omega
    show (file ++ rest).getD off 0 :: bufRead (file ++ rest) (off+1) n
        = file.getD off 0 :: bufRead file (off+1) n
    rw [List.getD_eq_getElem?_getD, List.getElem?_append_left h1,
      ← List.getD_eq_getElem?_getD, ih (off+1) (by omega)]

theorem uint32FromBytes_middle (pre suf : Bytes) (a : Nat) :
    uint32FromBytes (pre ++ le32 a ++ suf) pre.length = a % 4294967296 := by
  have h0 := getD_middle pre (le32 a) suf 0 (by simp [le32])
  have h1 := getD_middle pre (le32 a) suf 1 (by simp [le32])
  have h2 := getD_middle pre (le32 a) suf 2 (by simp [le32])
  have h3 := getD_middle pre (le32 a) suf 3 (by simp [le32])
  rw [Nat.add_zero] at h0
  unfold uint32FromBytes
  rw [h0, h1, h2, h3]
  simp only [le32, List.getD_cons_zero, List.getD_cons_succ]
  omega

theorem uint32FromBytes_start (suf : Bytes) (a : Nat) :
    uint32FromBytes (le32 a ++ suf) 0 = a % 4294967296 := by
  have := uint32FromBytes_middle [] suf a
  simpa using this

/-! ## Lemmas: CRC-32C stays a 32-bit value -/

theorem crc32cStep_lt (c : Nat) (h : c < 4294967296) :
    crc32cStep c < 4294967296 := by
  unfold crc32cStep
  split
  · have h1 : c / 2 < 2 ^ 32 := by omega
    have h2 : (0x82F63B78 : Nat) < 2 ^ 32 := by norm_num
    have := Nat.xor_lt_two_pow h1 h2
    omega
  · omega

theorem crc32cRounds_lt (n c : Nat) (h : c < 4294967296) :
    crc32cRounds n c < 4294967296 := by
  induction n generalizing c with
  | zero => exact h
  | succ n ih => exact ih _ (crc32cStep_lt c h)

theorem crc32cByte_lt (c b : Nat) (h : c < 4294967296) :
    crc32cByte c b < 4294967296 := by
  unfold crc32cByte
  apply crc32cRounds_lt
  have h1 : c < 2 ^ 32 := by omega
  have h2 : b % 256 < 2 ^ 32 := by
    have := Nat.mod_lt b (y := 256) (by norm_num)
    omega
  have := Nat.xor_lt_two_pow h1 h2
  omega

theorem crc32c_lt (msg : Bytes) : crc32c msg < 4294967296 := by
  unfold crc32c
  have hfold : ∀ (l : Bytes) (c : Nat), c < 4294967296 →
      l.foldl crc32cByte c < 4294967296 := by
    intro l
    induction l with
    | nil => intro c h; exact h
    | cons b l ih => intro c h; exact ih _ (crc32cByte_lt c b h)
  have h1 : msg.foldl crc32cByte 0xFFFFFFFF < 2 ^ 32 := by
    have := hfold msg 0xFFFFFFFF (by norm_num)
    omega
  have h2 : (0xFFFFFFFF : Nat) < 2 ^ 32 := by norm_num
  have := Nat.xor_lt_two_pow h1 h2
  omega

/-! ## Lemmas: the record codec -/

theorem newDocument_length (k v : Bytes) :
    (newDocument k v).length = 12 + k.length + v.length := by
  simp [newDocument, le32]
  omega

theorem newDocument_eq (k v : Bytes) :
    newDocument k v
      = le32 (crc32c (le32 k.length ++ le32 v.length ++ k ++ v)) ++
          (le32 k.length ++ le32 v.length ++ k ++ v) := by
  simp [newDocument]

theorem checkDocument_newDocument (k v : Bytes) :
    checkDocument (newDocument k v) = true := by
  unfold checkDocument
  rw [newDocument_eq]
  have hdrop : (le32 (crc32c (le32 k.length ++ le32 v.length ++ k ++ v)) ++
      (le32 k.length ++ le32 v.length ++ k ++ v)).drop 4
      = le32 k.length ++ le32 v.length ++ k ++ v := by
    simp [le32]
  rw [hdrop, uint32FromBytes_start,
    Nat.mod_eq_of_lt (crc32c_lt _)]
  simp

/-! ## Lemmas: the association-list index -/

theorem lookupKV_cons (e : Bytes × OffsetAndLength)
    (m : List (Bytes × OffsetAndLength)) (k : Bytes) :
    lookupKV (e :: m) k = if e.1 = k then some e.2 else lookupKV m k := by
  by_cases h : e.1 = k <;> simp [lookupKV, List.find?_cons, h]

theorem lookupKV_insertKV (m : List (Bytes × OffsetAndLength))
    (k : Bytes) (v : OffsetAndLength) (k' : Bytes) :
    lookupKV (insertKV m k v) k'
      = if k' = k then some v else lookupKV m k' := by
  induction m with
  | nil =>
    show lookupKV [(k, v)] k' = if k' = k then some v else lookupKV [] k'
    rw [lookupKV_cons]
    by_cases h : k' = k
    · simp [h]
    · rw [if_neg (fun hh => h hh.symm), if_neg h]
  | cons e m ih =>
    by_cases he : e.1 = k
    · have h1 : insertKV (e :: m) k v = insertKV m k v := by
        simp [insertKV, List.filter_cons, he]
      rw [h1, ih, lookupKV_cons]
      by_cases hk : k' = k
      · simp [hk]
      · have hne : ¬ e.1 = k' := by
          rw [he]; intro hc; exact hk hc.symm
        simp [hk, hne]
    · have h1 : insertKV (e :: m) k v = e :: insertKV m k v := by
        simp [insertKV, List.filter_cons, he]
      rw [h1, lookupKV_cons, lookupKV_cons]
      by_cases hek : e.1 = k'
      · have hne : ¬ k' = k := by
          intro hc; exact he (hek.trans hc)
        simp [hek, hne]
      · simp [hek, ih]

theorem lookupKV_eraseKV (m : List (Bytes × OffsetAndLength))
    (k k' : Bytes) :
    lookupKV (eraseKV m k) k'
      = if k' = k then none else lookupKV m k' := by
  induction m with
  | nil =>
    show lookupKV [] k' = if k' = k then none else lookupKV [] k'
    by_cases h : k' = k <;> simp [lookupKV, h]
  | cons e m ih =>
    by_cases he : e.1 = k
    · have h1 : eraseKV (e :: m) k = eraseKV m k := by
        simp [eraseKV, List.filter_cons, he]
      rw [h1, ih, lookupKV_cons]
      by_cases hk : k' = k
      · simp [hk]
      · have hne : ¬ e.1 = k' := by
          rw [he]; intro hc; exact hk hc.symm
        simp [hk, hne]
    · have h1 : eraseKV (e :: m) k = e :: eraseKV m k := by
        simp [eraseKV, List.filter_cons, he]
      rw [h1, lookupKV_cons, lookupKV_cons]
      by_cases hek : e.1 = k'
      · have hne : ¬ k' = k := by
          intro hc; exact he (hek.trans hc)
        simp [hek, hne]
      · simp [hek, ih]

theorem lookupKV_eq_none (m : List (Bytes × OffsetAndLength)) (k : Bytes)
    (h : k ∉ m.map Prod.fst) : lookupKV m k = none := by
  induction m with
  | nil => rfl
  | cons e m ih =>
    simp only [List.map_cons, List.mem_cons] at h
    push_neg at h
    rw [lookupKV_cons]
    have hne : ¬ e.1 = k := by
      intro hc; exact h.1 hc.symm
    rw [if_neg hne]
    exact ih h.2

theorem lookupKV_of_mem_nodup (m : List (Bytes × OffsetAndLength))
    (e : Bytes × OffsetAndLength) (hmem : e ∈ m)
    (hnodup : (m.map Prod.fst).Nodup) : lookupKV m e.1 = some e.2 := by
  induction m with
  | nil => cases hmem
  | cons e' m ih =>
    simp only [List.map_cons, List.nodup_cons] at hnodup
    rcases List.mem_cons.mp hmem with h | h
    · rw [← h, lookupKV_cons, if_pos rfl]
    · rw [lookupKV_cons]
      have hne : ¬ e'.1 = e.1 := by
        intro hcontra
        exact hnodup.1 (hcontra ▸ List.mem_map_of_mem Prod.fst h)
      rw [if_neg hne]
      exact ih h hnodup.2

/-! ## Lemmas: consolidation -/

theorem DB.get_eq_readVal (d : DB) (k : Bytes) :
    d.get k = ((readVal d.kToPos d.file k).getD [],
      (readVal d.kToPos d.file k).isSome) := by
  unfold DB.get readVal DB.getValAtOAL
  cases lookupKV d.kToPos k <;> simp

/-- The loop of `Consolidate` writes each surviving entry's value at the
entry's recorded new offset: the observable value of every key after the
loop is the value it had before (read from the old file), keys absent
from the processed entries keep their accumulator state. -/
theorem consolLoop_readVal (d : DB) (todo : List (Bytes × OffsetAndLength)) :
    ∀ (mNew : List (Bytes × OffsetAndLength)) (f : Bytes),
      (todo.map Prod.fst).Nodup →
      (∀ e ∈ todo, e.2.length < 4294967296) →
      (∀ k r, lookupKV mNew k = some r → r.offset + r.length ≤ f.length) →
      ∀ k : Bytes,
      readVal (consolLoop d todo mNew f.length f).1
          (consolLoop d todo mNew f.length f).2.2 k
        = match lookupKV todo k with
          | some o => some (bufRead d.file o.offset o.length)
          | none => readVal mNew f k := by
  induction todo with
  | nil =>
    intro mNew f _ _ _ k
    simp [consolLoop, lookupKV]
  | cons e todo ih =>
    intro mNew f hnodup hlen hprev k
    have hvlen : (d.getValAtOAL e.2).length = e.2.length :=
      bufRead_length _ _ _
    have hel : e.2.length < 4294967296 := hlen e (List.mem_cons_self e todo)
    have hoal : getOAL f.length e.1 (d.getValAtOAL e.2)
        = ⟨f.length + 12 + e.1.length, e.2.length⟩ := by
      unfold getOAL
      rw [hvlen, Nat.mod_eq_of_lt hel]
    have hstep : consolLoop d (e :: todo) mNew f.length f
        = consolLoop d todo
            (insertKV mNew e.1 ⟨f.length + 12 + e.1.length, e.2.length⟩)
            (f ++ newDocument e.1 (d.getValAtOAL e.2)).length
            (f ++ newDocument e.1 (d.getValAtOAL e.2)) := by
      simp only [consolLoop, hoal, List.length_append]
    rw [hstep]
    simp only [List.map_cons, List.nodup_cons] at hnodup
    have hprev1 : ∀ k r,
        lookupKV (insertKV mNew e.1
            ⟨f.length + 12 + e.1.length, e.2.length⟩) k = some r →
        r.offset + r.length
          ≤ (f ++ newDocument e.1 (d.getValAtOAL e.2)).length := by
      intro k' r hr
      rw [lookupKV_insertKV] at hr
      by_cases hk : k' = e.1
      · rw [if_pos hk] at hr
        cases hr
        simp only [List.length_append, newDocument_length, hvlen]
        omega
      · rw [if_neg hk] at hr
        have := hprev k' r hr
        simp only [List.length_append]
        omega
    have hih := ih (insertKV mNew e.1
        ⟨f.length + 12 + e.1.length, e.2.length⟩)
      (f ++ newDocument e.1 (d.getValAtOAL e.2)) hnodup.2
      (fun e' he' => hlen e' (List.mem_cons_of_mem e he')) hprev1 k
    rw [hih, lookupKV_cons]
    by_cases hk : e.1 = k
    · rw [if_pos hk]
      have hnotin : lookupKV todo k = none := by
        apply lookupKV_eq_none
        rw [← hk]
        exact hnodup.1
      rw [hnotin]
      unfold readVal
      rw [lookupKV_insertKV, if_pos hk.symm]
      have hmid : bufRead (f ++ newDocument e.1 (d.getValAtOAL e.2))
          (f.length + 12 + e.1.length) e.2.length = d.getValAtOAL e.2 := by
        have hassoc : f ++ newDocument e.1 (d.getValAtOAL e.2)
            = (f ++ le32 (crc32c (le32 e.1.length ++
                le32 (d.getValAtOAL e.2).length ++ e.1 ++
                d.getValAtOAL e.2)) ++ le32 e.1.length ++
                le32 (d.getValAtOAL e.2).length ++ e.1)
              ++ d.getValAtOAL e.2 ++ [] := by
          simp [newDocument]
        have hplen : (f ++ le32 (crc32c (le32 e.1.length ++
            le32 (d.getValAtOAL e.2).length ++ e.1 ++
            d.getValAtOAL e.2)) ++ le32 e.1.length ++
            le32 (d.getValAtOAL e.2).length ++ e.1).length
            = f.length + 12 + e.1.length := by
          simp [le32]
          omega
        rw [hassoc, ← hplen, ← hvlen]
        exact bufRead_middle _ _ _
      show some (bufRead (f ++ newDocument e.1 (d.getValAtOAL e.2))
          (f.length + 12 + e.1.length) e.2.length)
        = some (bufRead d.file e.2.offset e.2.length)
      rw [hmid]
      rfl
    · rw [if_neg hk]
      cases hl : lookupKV todo k with
      | some o => rfl
      | none =>
        unfold readVal
        rw [lookupKV_insertKV,
          if_neg (fun hc => hk hc.symm)]
        cases hm : lookupKV mNew k with
        | none => rfl
        | some r =>
          show some (bufRead (f ++ newDocument e.1 (d.getValAtOAL e.2))
              r.offset r.length) = some (bufRead f r.offset r.length)
          rw [bufRead_append_of_le f _ r.offset r.length (hprev k r hm)]

/-- `Consolidate` leaves the observable value of every key unchanged. -/
theorem consolidate_readVal (d : DB)
    (hnodup : (d.kToPos.map Prod.fst).Nodup)
    (hlen : ∀ e ∈ d.kToPos, e.2.length < 4294967296) (k : Bytes) :
    readVal d.consolidate.kToPos d.consolidate.file k
      = readVal d.kToPos d.file k := by
  have hprev : ∀ k r, lookupKV ([] : List (Bytes × OffsetAndLength)) k
      = some r → r.offset + r.length ≤ ([] : Bytes).length := by
    intro k r hr
    simp [lookupKV] at hr
  have h := consolLoop_readVal d d.kToPos [] [] hnodup hlen hprev k
  have hc : d.consolidate.kToPos = (consolLoop d d.kToPos [] 0 []).1 := rfl
  have hf : d.consolidate.file = (consolLoop d d.kToPos [] 0 []).2.2 := rfl
  rw [hc, hf]
  have hzero : (0 : Nat) = ([] : Bytes).length := rfl
  rw [hzero, h]
  unfold readVal
  cases hl : lookupKV d.kToPos k with
  | none => rfl
  | some o => rfl

/-- The loop of `Consolidate` produces exactly the concatenation of one
fresh record per index entry; the final position is the accumulated
record sizes. -/
theorem consolLoop_parts (d : DB)
    (todo : List (Bytes × OffsetAndLength)) :
    ∀ (mNew : List (Bytes × OffsetAndLength)) (pos : Nat) (f : Bytes),
      (consolLoop d todo mNew pos f).2.2
          = f ++ (todo.map fun e =>
              newDocument e.1 (d.getValAtOAL e.2)).flatten
        ∧ (consolLoop d todo mNew pos f).2.1
          = pos + ((todo.map fun e =>
              (newDocument e.1 (d.getValAtOAL e.2)).length).sum) := by
  induction todo with
  | nil => intro mNew pos f; simp [consolLoop]
  | cons e todo ih =>
    intro mNew pos f
    simp only [consolLoop, List.map_cons, List.flatten_cons, List.sum_cons]
    have h := ih (insertKV mNew e.1 (getOAL pos e.1 (d.getValAtOAL e.2)))
      (pos + (newDocument e.1 (d.getValAtOAL e.2)).length)
      (f ++ newDocument e.1 (d.getValAtOAL e.2))
    refine ⟨?_, ?_⟩
    · rw [h.1, List.append_assoc]
    · rw [h.2]; omega

/-! ## Lemmas: record frames and the verified-open scan -/

theorem encodeFrame_length (f : Frame) :
    (encodeFrame f).length = frameSize f := by
  simp [encodeFrame, frameSize, le32]
  omega

theorem encodeFrames_cons (f : Frame) (fs : List Frame) :
    encodeFrames (f :: fs) = encodeFrame f ++ encodeFrames fs := by
  simp [encodeFrames]

theorem encodeFrames_append (fs gs : List Frame) :
    encodeFrames (fs ++ gs) = encodeFrames fs ++ encodeFrames gs := by
  simp [encodeFrames]

theorem length_encodeFrames_ge (fs : List Frame) :
    fs.length ≤ (encodeFrames fs).length := by
  induction fs with
  | nil => simp [encodeFrames]
  | cons f fs ih =>
    rw [encodeFrames_cons]
    have hf := encodeFrame_length f
    unfold frameSize at hf
    simp only [List.length_append, List.length_cons]
    omega

/-- Decoding the key-length field of a frame embedded in a file. -/
theorem decode_keyLen (pre rest : Bytes) (f : Frame)
    (hfit : frameFits f) :
    uint32FromBytes (pre ++ encodeFrame f ++ rest) (pre.length + 4)
      = f.key.length := by
  have hre : pre ++ encodeFrame f ++ rest
      = (pre ++ le32 f.checksum) ++ le32 f.key.length ++
          (le32 f.val.length ++ f.key ++ f.val ++ rest) := by
    simp [encodeFrame]
  have hply : pre.length + 4 = (pre ++ le32 f.checksum).length := by
    simp [le32]
  rw [hre, hply, uint32FromBytes_middle, Nat.mod_eq_of_lt hfit.1]

/-- Decoding the value-length field of a frame embedded in a file. -/
theorem decode_valLen (pre rest : Bytes) (f : Frame)
    (hfit : frameFits f) :
    uint32FromBytes (pre ++ encodeFrame f ++ rest) (pre.length + 8)
      = f.val.length := by
  have hre : pre ++ encodeFrame f ++ rest
      = (pre ++ le32 f.checksum ++ le32 f.key.length) ++ le32 f.val.length ++
          (f.key ++ f.val ++ rest) := by
    simp [encodeFrame]
  have hply : pre.length + 8
      = (pre ++ le32 f.checksum ++ le32 f.key.length).length := by
    simp [le32]
  rw [hre, hply, uint32FromBytes_middle, Nat.mod_eq_of_lt hfit.2]

/-- Reading the key bytes of a frame embedded in a file. -/
theorem decode_key (pre rest : Bytes) (f : Frame) :
    bufRead (pre ++ encodeFrame f ++ rest) (pre.length + 12) f.key.length
      = f.key := by
  have hre : pre ++ encodeFrame f ++ rest
      = (pre ++ le32 f.checksum ++ le32 f.key.length ++ le32 f.val.length)
          ++ f.key ++ (f.val ++ rest) := by
    simp [encodeFrame]
  have hply : pre.length + 12
      = (pre ++ le32 f.checksum ++ le32 f.key.length ++
          le32 f.val.length).length := by
    simp [le32]
  rw [hre, hply]
  exact bufRead_middle _ _ _

/-- Reading the whole slice of a frame embedded in a file. -/
theorem decode_slice (pre rest : Bytes) (f : Frame) :
    bufRead (pre ++ encodeFrame f ++ rest) pre.length
        (12 + f.key.length + f.val.length) = encodeFrame f := by
  have h12 : 12 + f.key.length + f.val.length = (encodeFrame f).length := by
    rw [encodeFrame_length]
    unfold frameSize
    omega
  rw [h12]
  exact bufRead_middle _ _ _

theorem pos_lt_of_frame (pre rest : Bytes) (f : Frame) :
    pre.length < (pre ++ encodeFrame f ++ rest).length := by
  have hf := encodeFrame_length f
  unfold frameSize at hf
  simp only [List.length_append]
  omega

/-- One iteration of the scan at a frame boundary: a valid frame is
consumed and applied, an invalid frame stops the scan with a corruption
report at its position. -/
theorem verifyLoop_step (fuel : Nat) (pre rest : Bytes) (f : Frame)
    (m : List (Bytes × OffsetAndLength)) (hfit : frameFits f) :
    verifyLoop (fuel + 1) (pre ++ encodeFrame f ++ rest) pre.length m
      = if frameValid f then
          verifyLoop fuel (pre ++ encodeFrame f ++ rest)
            (pre.length + frameSize f) (applyFrame m pre.length f)
        else (m, pre.length, some pre.length) := by
  have hlt := pos_lt_of_frame pre rest f
  have hk4 := decode_keyLen pre rest f hfit
  have hv8 := decode_valLen pre rest f hfit
  have hkey := decode_key pre rest f
  have hslice := decode_slice pre rest f
  have hfv : checkDocument (encodeFrame f) = frameValid f := rfl
  simp only [verifyLoop]
  rw [if_pos hlt, hk4, hv8, hkey, hslice, hfv]
  have hpos : pre.length + 12 + f.key.length + f.val.length
      = pre.length + frameSize f := by
    unfold frameSize
    omega
  rw [hpos]
  unfold applyFrame
  rfl

/-- The scan walks a block of valid frames, applying each in turn. -/
theorem verifyLoop_frames (fs : List Frame) :
    ∀ (pre rest : Bytes) (m : List (Bytes × OffsetAndLength)) (fuel : Nat),
      (∀ f ∈ fs, frameValid f = true) → (∀ f ∈ fs, frameFits f) →
      fs.length ≤ fuel →
      verifyLoop fuel (pre ++ encodeFrames fs ++ rest) pre.length m
        = verifyLoop (fuel - fs.length) (pre ++ encodeFrames fs ++ rest)
            (pre.length + (encodeFrames fs).length)
            (applyFrames m pre.length fs) := by
  induction fs with
  | nil =>
    intro pre rest m fuel _ _ _
    simp [encodeFrames, applyFrames]
  | cons f fs ih =>
    intro pre rest m fuel hval hfit hfuel
    obtain ⟨fuel, rfl⟩ : ∃ n, fuel = n + 1 :=
      ⟨fuel - 1, by simp at hfuel; omega⟩
    rw [encodeFrames_cons]
    have hre : pre ++ (encodeFrame f ++ encodeFrames fs) ++ rest
        = pre ++ encodeFrame f ++ (encodeFrames fs ++ rest) := by
      simp
    rw [hre, verifyLoop_step fuel pre (encodeFrames fs ++ rest) f m
      (hfit f (List.mem_cons_self f fs)),
      if_pos (hval f (List.mem_cons_self f fs))]
    have hre2 : pre ++ encodeFrame f ++ (encodeFrames fs ++ rest)
        = (pre ++ encodeFrame f) ++ encodeFrames fs ++ rest := by
      simp
    have hpos : pre.length + frameSize f = (pre ++ encodeFrame f).length := by
      simp [encodeFrame_length]
    rw [hre2, hpos,
      ih (pre ++ encodeFrame f) rest (applyFrame m pre.length f) fuel
        (fun g hg => hval g (List.mem_cons_of_mem f hg))
        (fun g hg => hfit g (List.mem_cons_of_mem f hg))
        (by simp at hfuel ⊢; omega)]
    have hlen : (pre ++ encodeFrame f).length + (encodeFrames fs).length
        = pre.length + (encodeFrame f ++ encodeFrames fs).length := by
      simp
      omega
    rw [hlen, ← hre2, ← hpos]
    have hfs : fuel + 1 - (f :: fs).length = fuel - fs.length := by
      simp
    rw [hfs]
    simp only [applyFrames]

/-- Once the instrumented scan has seen an out-of-bounds access, the
flag stays set. -/
theorem verifyLoopAcc_true (fuel : Nat) (file : Bytes) :
    ∀ (pos : Nat) (m : List (Bytes × OffsetAndLength)),
      (verifyLoopAcc fuel file pos m true).2 = true := by
  induction fuel with
  | zero => intro pos m; rfl
  | succ fuel ih =>
    intro pos m
    simp only [verifyLoopAcc, Bool.true_or]
    split
    · split
      · exact ih _ _
      · rfl
    · rfl

/-- One iteration of the instrumented scan at a valid frame boundary. -/
theorem verifyLoopAcc_step_valid (fuel : Nat) (pre rest : Bytes) (f : Frame)
    (m : List (Bytes × OffsetAndLength)) (acc : Bool)
    (hfit : frameFits f) (hval : frameValid f = true) :
    verifyLoopAcc (fuel + 1) (pre ++ encodeFrame f ++ rest) pre.length m acc
      = verifyLoopAcc fuel (pre ++ encodeFrame f ++ rest)
          (pre.length + frameSize f) (applyFrame m pre.length f)
          (acc || decide ((pre ++ encodeFrame f ++ rest).length <
            pre.length + frameSize f)) := by
  have hlt := pos_lt_of_frame pre rest f
  have hk4 := decode_keyLen pre rest f hfit
  have hv8 := decode_valLen pre rest f hfit
  have hkey := decode_key pre rest f
  have hslice := decode_slice pre rest f
  have hfv : checkDocument (encodeFrame f) = frameValid f := rfl
  simp only [verifyLoopAcc]
  rw [if_pos hlt, hk4, hv8, hkey, hslice, hfv, if_pos hval]
  have hpos : pre.length + 12 + f.key.length + f.val.length
      = pre.length + frameSize f := by
    unfold frameSize
    omega
  rw [hpos]
  unfold applyFrame
  rfl

/-- The instrumented scan walks a block of valid frames; the flag ends up
at some value `acc'`. -/
theorem verifyLoopAcc_frames (fs : List Frame) :
    ∀ (pre rest : Bytes) (m : List (Bytes × OffsetAndLength)) (acc : Bool)
      (fuel : Nat),
      (∀ f ∈ fs, frameValid f = true) → (∀ f ∈ fs, frameFits f) →
      fs.length ≤ fuel →
      ∃ acc' : Bool,
      verifyLoopAcc fuel (pre ++ encodeFrames fs ++ rest) pre.length m acc
        = verifyLoopAcc (fuel - fs.length) (pre ++ encodeFrames fs ++ rest)
            (pre.length + (encodeFrames fs).length)
            (applyFrames m pre.length fs) acc' := by
  induction fs with
  | nil =>
    intro pre rest m acc fuel _ _ _
    refine ⟨acc, ?_⟩
    simp [encodeFrames, applyFrames]
  | cons f fs ih =>
    intro pre rest m acc fuel hval hfit hfuel
    obtain ⟨fuel, rfl⟩ : ∃ n, fuel = n + 1 :=
      ⟨fuel - 1, by simp at hfuel; omega⟩
    rw [encodeFrames_cons]
    have hre : pre ++ (encodeFrame f ++ encodeFrames fs) ++ rest
        = pre ++ encodeFrame f ++ (encodeFrames fs ++ rest) := by
      simp
    rw [hre, verifyLoopAcc_step_valid fuel pre (encodeFrames fs ++ rest) f m
      acc (hfit f (List.mem_cons_self f fs)) (hval f (List.mem_cons_self f fs))]
    have hre2 : pre ++ encodeFrame f ++ (encodeFrames fs ++ rest)
        = (pre ++ encodeFrame f) ++ encodeFrames fs ++ rest := by
      simp
    have hpos : pre.length + frameSize f = (pre ++ encodeFrame f).length := by
      simp [encodeFrame_length]
    rw [hre2, hpos]
    obtain ⟨acc', hacc⟩ := ih (pre ++ encodeFrame f) rest
      (applyFrame m pre.length f)
      (acc || decide ((pre ++ encodeFrame f ++ (encodeFrames fs ++ rest)).length
        < (pre ++ encodeFrame f).length))
      fuel
      (fun g hg => hval g (List.mem_cons_of_mem f hg))
      (fun g hg => hfit g (List.mem_cons_of_mem f hg))
      (by simp at hfuel ⊢; omega)
    rw [hre2] at hacc
    rw [hacc]
    refine ⟨acc', ?_⟩
    have hlen : (pre ++ encodeFrame f).length + (encodeFrames fs).length
        = pre.length + (encodeFrame f ++ encodeFrames fs).length := by
      simp
      omega
    rw [hlen, ← hre2, ← hpos]
    have hfs : fuel + 1 - (f :: fs).length = fuel - fs.length := by
      simp
    rw [hfs]
    simp only [applyFrames]

/-- An iteration whose decoded lengths reach past the end of the file
sets the out-of-bounds flag, whatever happens afterwards. -/
theorem verifyLoopAcc_oob_hit (fuel : Nat) (file : Bytes) (pos : Nat)
    (m : List (Bytes × OffsetAndLength)) (acc : Bool)
    (hpos : pos < file.length)
    (hoob : file.length < pos + 12 + uint32FromBytes file (pos+4)
        + uint32FromBytes file (pos+8)) :
    (verifyLoopAcc (fuel + 1) file pos m acc).2 = true := by
  simp only [verifyLoopAcc]
  rw [if_pos hpos]
  have hacc : (acc || decide (file.length < pos + 12
      + uint32FromBytes file (pos+4) + uint32FromBytes file (pos+8)))
      = true := by
    simp [hoob]
  rw [hacc]
  split
  · exact verifyLoopAcc_true _ _ _ _
  · rfl

/-- The verified-open scan of a file of valid frames followed by one
invalid frame (and anything after it) stops at the invalid frame. -/
theorem verify_open_bad (good : List Frame) (bad : Frame) (rest : List Frame)
    (hval : ∀ f ∈ good, frameValid f = true) (hfit : ∀ f ∈ good, frameFits f)
    (hbfit : frameFits bad) (hbval : frameValid bad = false) :
    openAndVerifyDB (encodeFrames good ++ encodeFrame bad ++ encodeFrames rest)
      = (applyFrames [] 0 good, (encodeFrames good).length,
          some (encodeFrames good).length) := by
  unfold openAndVerifyDB
  have hfuel : good.length
      ≤ (encodeFrames good ++ encodeFrame bad ++ encodeFrames rest).length
        + 1 := by
    have h1 := length_encodeFrames_ge good
    simp only [List.length_append]
    omega
  have hmain := verifyLoop_frames good [] (encodeFrame bad ++ encodeFrames rest)
    []
    ((encodeFrames good ++ encodeFrame bad ++ encodeFrames rest).length + 1)
    hval hfit hfuel
  simp only [List.nil_append, List.length_nil, Nat.zero_add,
    ← List.append_assoc] at hmain
  rw [hmain]
  obtain ⟨n, hn⟩ : ∃ n,
      (encodeFrames good ++ encodeFrame bad ++ encodeFrames rest).length + 1
        - good.length = n + 1 := by
    have h1 := length_encodeFrames_ge good
    refine ⟨(encodeFrames good ++ encodeFrame bad ++ encodeFrames rest).length
      - good.length, ?_⟩
    simp only [List.length_append]
    omega
  rw [hn, verifyLoop_step n (encodeFrames good) (encodeFrames rest) bad
    (applyFrames [] 0 good) hbfit, hbval]
  simp

/-- The verified-open scan of a file of only valid frames consumes it
all and reports no corruption. -/
theorem verify_open_clean (fs : List Frame)
    (hval : ∀ f ∈ fs, frameValid f = true) (hfit : ∀ f ∈ fs, frameFits f) :
    openAndVerifyDB (encodeFrames fs)
      = (applyFrames [] 0 fs, (encodeFrames fs).length, none) := by
  unfold openAndVerifyDB
  have hfuel : fs.length ≤ (encodeFrames fs).length + 1 := by
    have := length_encodeFrames_ge fs
    omega
  have hmain := verifyLoop_frames fs [] [] []
    ((encodeFrames fs).length + 1) hval hfit hfuel
  simp only [List.nil_append, List.append_nil, List.length_nil,
    Nat.zero_add] at hmain
  rw [hmain]
  obtain ⟨n, hn⟩ : ∃ n, (encodeFrames fs).length + 1 - fs.length = n + 1 := by
    have h1 := length_encodeFrames_ge fs
    exact ⟨(encodeFrames fs).length - fs.length, by omega⟩
  rw [hn]
  simp only [verifyLoop]
  rw [if_neg (lt_irrefl _)]

/-! ## The claims -/

set_option maxRecDepth 400000

/-- C1.  The claim states that `Get(k)` always returns the value of the
most recent `Upsert(k, v)` not followed by `Remove(k)` — in particular
`(v, true)` immediately after `Upsert(k, v)`.  The code violates this:
`Remove` appends a 13-byte tombstone to the data file without advancing
`filledSize`, so the pointer recorded by the next `Upsert` is stale.  On
the sequence `Remove("a"); Upsert("b", "x")` (bytes 97, 98, 120), the
subsequent `Get("b")` returns the single byte 253 (the first checksum
byte of record "b" itself, which sits at the file offset the index
points into) instead of `"x"` = byte 120. -/
theorem c1_get_after_remove_returns_wrong_value :
    (((newDB.remove [97]).upsert [98] [120]).get [98]).2 = true
      ∧ ((newDB.remove [97]).upsert [98] [120]).get [98] ≠ ([120], true)
      ∧ ((newDB.remove [97]).upsert [98] [120]).get [98] = ([253], true) := by
  decide

/-- C2.  The claim states that after every operation the write position
equals the data file's byte length.  `Remove` violates it: on a fresh
handle, `Remove("a")` appends a 13-byte tombstone record
(`12 + |"a"|` bytes) to the file yet leaves `filledSize` at 0. -/
theorem c2_remove_leaves_write_position_behind :
    (newDB.remove [97]).file.length = 13
      ∧ (newDB.remove [97]).filledSize = 0 := by
  decide

/-- C3.  `Consolidate()` leaves the observable key-to-value mapping
unchanged: for every key, `Get` returns the same `(value, present)`
result before and after.  Stated for handles whose index is a well-formed
Go map image: distinct keys, and pointer lengths that fit `uint32` (both
hold for every state the Go code can build). -/
theorem c3_consolidate_preserves_get (d : DB)
    (hnodup : (d.kToPos.map Prod.fst).Nodup)
    (hlen : ∀ e ∈ d.kToPos, e.2.length < 4294967296) (k : Bytes) :
    d.consolidate.get k = d.get k := by
  rw [DB.get_eq_readVal, DB.get_eq_readVal,
    consolidate_readVal d hnodup hlen]

/-- Witness for C3 at a concrete handle and key. -/
theorem c3_witness :
    ((newDB.upsert [97] [120]).consolidate).get [97]
      = (newDB.upsert [97] [120]).get [97] :=
  c3_consolidate_preserves_get (newDB.upsert [97] [120])
    (by decide) (by decide) [97]

/-- C4.  The claim states that `Close` followed by `OpenDB` restores the
identical mapping, including across repeated close/reopen cycles, so a
`Remove` between an earlier and a later `Close` stays deleted.  The code
violates this: `dumpKeys` opens `<location>.keys` with `O_APPEND` and no
truncation, so the second `Close` appends its (here empty) snapshot after
the first one's stale entry, and `populateKeys` resurrects the removed
key.  Scenario: `Upsert("a","x"); Close; OpenDB; Remove("a"); Close;
OpenDB` — at the moment of the second `Close` the key is absent
(second conjunct), yet after reopening `Get("a")` returns
`("x", true)` (first conjunct). -/
theorem c4_reopen_resurrects_removed_key :
    ((openDB (((openDB ((newDB.upsert [97] [120]).close)).remove
        [97]).close)).get [97] = ([120], true))
      ∧ (((openDB ((newDB.upsert [97] [120]).close)).remove [97]).get [97]
        = ([], false)) := by
  decide

/-- C5.  `OpenAndVerifyDB` on a file whose records are valid up to the
record starting at position `P` and whose record at `P` fails its
checksum stops at `P`: it returns the index built from exactly the valid
records before `P` (later records superseding earlier ones, tombstones
deleting keys — `applyFrames`), write position `P`, and a corruption
report carrying `P`; a file of only valid records yields the full index,
write position at the file's end, and no error. -/
theorem c5_verified_open_corruption_boundary :
    (∀ (good : List Frame) (bad : Frame) (rest : List Frame),
      (∀ f ∈ good, frameValid f = true) → (∀ f ∈ good, frameFits f) →
      frameFits bad → frameValid bad = false →
      openAndVerifyDB (encodeFrames (good ++ bad :: rest))
        = (applyFrames [] 0 good, (encodeFrames good).length,
            some (encodeFrames good).length))
    ∧ ∀ fs : List Frame,
      (∀ f ∈ fs, frameValid f = true) → (∀ f ∈ fs, frameFits f) →
      openAndVerifyDB (encodeFrames fs)
        = (applyFrames [] 0 fs, (encodeFrames fs).length, none) := by
  constructor
  · intro good bad rest hval hfit hbfit hbval
    have hfile : encodeFrames (good ++ bad :: rest)
        = encodeFrames good ++ encodeFrame bad ++ encodeFrames rest := by
      rw [encodeFrames_append, encodeFrames_cons, List.append_assoc]
    rw [hfile]
    exact verify_open_bad good bad rest hval hfit hbfit hbval
  · intro fs hval hfit
    exact verify_open_clean fs hval hfit

/-- Witness for C5: a file holding a single record with a bad checksum
(stored checksum 0, empty key and value) is rejected at position 0 with
an empty index. -/
theorem c5_witness :
    openAndVerifyDB (encodeFrames [⟨0, [], []⟩]) = ([], 0, some 0) := by
  have h := c5_verified_open_corruption_boundary.1 [] ⟨0, [], []⟩ []
    (by intro f hf; cases hf) (by intro f hf; cases hf)
    (by constructor <;> norm_num) (by decide)
  simpa using h

/-- C6.  The claim states that a failed append makes the operation fail,
surfacing the error with the index untouched.  The code violates this:
`Upsert` discards the result of `filehandle.Write` and returns nothing,
and it updates the index and the write position identically whether or
not the append reached the file — a failed write is exactly a "silent
no-op in which the index is updated but the record was not appended".
(`Remove` likewise discards the write's result; its index deletion also
happens unconditionally.) -/
theorem c6_failed_append_still_updates_index (d : DB) (k v : Bytes) :
    (d.upsertW k v false).kToPos = (d.upsertW k v true).kToPos
      ∧ (d.upsertW k v false).file = d.file
      ∧ (d.upsertW k v false).filledSize = (d.upsertW k v true).filledSize
      ∧ (d.removeW k false).kToPos = (d.removeW k true).kToPos
      ∧ (d.removeW k false).file = d.file :=
  ⟨rfl, rfl, rfl, rfl, rfl⟩

/-- C7.  The claim states the index never stores a pointer of length
zero — in particular that `Upsert` with an empty value leaves the key
absent.  The code violates this: `Upsert("a", "")` writes a tombstone
record but stores the pointer `(offset 13, length 0)` in the index, and
`Get("a")` then reports the key as present. -/
theorem c7_empty_upsert_stores_zero_length_pointer :
    (newDB.upsert [97] []).kToPos = [([97], ⟨13, 0⟩)]
      ∧ (newDB.upsert [97] []).get [97] = ([], true) := by
  decide

/-- C8 as stated is false: on the handle produced by `Upsert("a", "")`
the key "a" is live (`Get` returns `("", true)`), and the consolidated
file consists of the single record for "a" whose value-length field is
0 — by the spec's own definition a tombstone, contradicting "no
tombstones".  (The file length still satisfies the sum formula.) -/
theorem c8_counterexample_tombstone_survives :
    ((newDB.upsert [97] []).consolidate).get [97] = ([], true)
      ∧ ((newDB.upsert [97] []).consolidate).file = newDocument [97] []
      ∧ uint32FromBytes ((newDB.upsert [97] []).consolidate).file 8 = 0 := by
  decide

/-- C8, amended: for a handle whose index holds distinct keys with
pointers of positive length (which excludes only states built through
`Upsert` with an empty value), the consolidated file is exactly the
concatenation of one fresh record per live key, each record's value is
the key's live value and is nonempty (no tombstones), the write position
equals the file length, and the file length is the sum over live keys of
`12 + |k| + |v|`. -/
theorem c8_consolidate_compaction (d : DB)
    (hnodup : (d.kToPos.map Prod.fst).Nodup)
    (hpositive : ∀ e ∈ d.kToPos, 0 < e.2.length) :
    d.consolidate.file
        = (d.kToPos.map fun e => newDocument e.1 (d.getValAtOAL e.2)).flatten
      ∧ (∀ e ∈ d.kToPos, d.get e.1 = (d.getValAtOAL e.2, true)
          ∧ 0 < (d.getValAtOAL e.2).length)
      ∧ d.consolidate.filledSize = d.consolidate.file.length
      ∧ d.consolidate.file.length
        = (d.kToPos.map fun e =>
            12 + e.1.length + (d.get e.1).1.length).sum := by
  have hparts := consolLoop_parts d d.kToPos [] 0 []
  have hget : ∀ e ∈ d.kToPos, d.get e.1 = (d.getValAtOAL e.2, true) := by
    intro e he
    unfold DB.get
    rw [lookupKV_of_mem_nodup d.kToPos e he hnodup]
  have hfile : d.consolidate.file
      = (d.kToPos.map fun e => newDocument e.1 (d.getValAtOAL e.2)).flatten := by
    have h1 := hparts.1
    simpa using h1
  have hsum : d.consolidate.filledSize
      = ((d.kToPos.map fun e =>
          (newDocument e.1 (d.getValAtOAL e.2)).length).sum) := by
    have h2 := hparts.2
    simpa using h2
  refine ⟨hfile, ?_, ?_, ?_⟩
  · intro e he
    refine ⟨hget e he, ?_⟩
    have := bufRead_length d.file e.2.offset e.2.length
    have hp := hpositive e he
    unfold DB.getValAtOAL
    omega
  · rw [hfile, hsum, List.length_flatten, List.map_map]
    rfl
  · rw [hfile, List.length_flatten, List.map_map]
    have hcong : ∀ e ∈ d.kToPos,
        (List.length ∘ fun e => newDocument e.1 (d.getValAtOAL e.2)) e
          = 12 + e.1.length + (d.get e.1).1.length := by
      intro e he
      show (newDocument e.1 (d.getValAtOAL e.2)).length = _
      rw [newDocument_length, hget e he]
    rw [List.map_congr_left hcong]

/-- Witness for C8 at a concrete handle. -/
theorem c8_witness :
    ((newDB.upsert [97] [120]).consolidate).filledSize
      = ((newDB.upsert [97] [120]).consolidate).file.length :=
  (c8_consolidate_compaction (newDB.upsert [97] [120])
    (by decide) (by decide)).2.2.1

/-- C9.  The record codec: `newDocument(k, v)` has size
`12 + |k| + |v|`; its bytes are a 4-byte checksum, then the 4-byte
little-endian key length (decoding back to `|k|`), the 4-byte
little-endian value length (decoding back to `|v|`), then the key and
value bytes; the stored checksum is the little-endian CRC-32C of bytes
`[4, end)`, so the record satisfies `checkDocument`; and an arbitrary
record satisfies `checkDocument` iff its stored checksum equals CRC-32C
of its bytes from offset 4 to the end. -/
theorem c9_record_codec (k v : Bytes) (hk : k.length < 4294967296)
    (hv : v.length < 4294967296) :
    (newDocument k v).length = 12 + k.length + v.length
      ∧ uint32FromBytes (newDocument k v) 4 = k.length
      ∧ uint32FromBytes (newDocument k v) 8 = v.length
      ∧ (newDocument k v).drop 12 = k ++ v
      ∧ (newDocument k v).take 4 = le32 (crc32c ((newDocument k v).drop 4))
      ∧ checkDocument (newDocument k v) = true
      ∧ ∀ b : Bytes,
          (checkDocument b = true ↔ uint32FromBytes b 0 = crc32c (b.drop 4)) := by
  refine ⟨newDocument_length k v, ?_, ?_, ?_, ?_,
    checkDocument_newDocument k v, ?_⟩
  · have hre : newDocument k v
        = (le32 (crc32c (le32 k.length ++ le32 v.length ++ k ++ v)))
          ++ le32 k.length ++ (le32 v.length ++ k ++ v) := by
      simp [newDocument]
    have hply : (4 : Nat)
        = (le32 (crc32c (le32 k.length ++ le32 v.length ++ k ++ v))).length := by
      simp [le32]
    rw [hre, hply, uint32FromBytes_middle, Nat.mod_eq_of_lt hk]
  · have hre : newDocument k v
        = (le32 (crc32c (le32 k.length ++ le32 v.length ++ k ++ v))
            ++ le32 k.length) ++ le32 v.length ++ (k ++ v) := by
      simp [newDocument]
    have hply : (8 : Nat)
        = (le32 (crc32c (le32 k.length ++ le32 v.length ++ k ++ v))
            ++ le32 k.length).length := by
      simp [le32]
    rw [hre, hply, uint32FromBytes_middle, Nat.mod_eq_of_lt hv]
  · simp [newDocument, le32]
  · have hdrop : (newDocument k v).drop 4
        = le32 k.length ++ le32 v.length ++ k ++ v := by
      simp [newDocument, le32]
    have htake : (newDocument k v).take 4
        = le32 (crc32c (le32 k.length ++ le32 v.length ++ k ++ v)) := by
      rw [newDocument_eq]
      have h4 : (4 : Nat)
          = (le32 (crc32c (le32 k.length ++ le32 v.length ++ k ++ v))).length := by
        simp [le32]
      rw [h4, List.take_left]
    rw [htake, hdrop]
  · intro b
    unfold checkDocument
    exact beq_iff_eq

/-- Witness for C9 at a concrete record. -/
theorem c9_witness :
    (newDocument [1] [2]).length = 14
      ∧ checkDocument (newDocument [1] [2]) = true := by
  have h := c9_record_codec [1] [2] (by norm_num) (by norm_num)
  exact ⟨by simpa using h.1, h.2.2.2.2.2.1⟩

/-- C10.  When the data file is a block of valid records followed by a
truncated record at the tail — fewer bytes remain than the decoded key
and value lengths require — the `OpenAndVerifyDB` scan reaches the tail
and accesses the mapping at or beyond the file's logical length (it
slices `12 + kLen + vLen` bytes for the checksum verification without
any bounds check). -/
theorem c10_truncated_tail_reads_out_of_bounds (fs : List Frame) (t : Bytes)
    (hval : ∀ f ∈ fs, frameValid f = true) (hfit : ∀ f ∈ fs, frameFits f)
    (ht : 0 < t.length)
    (htrunc : t.length < 12
        + uint32FromBytes (encodeFrames fs ++ t) ((encodeFrames fs).length + 4)
        + uint32FromBytes (encodeFrames fs ++ t)
            ((encodeFrames fs).length + 8)) :
    verifyScanOutOfBounds (encodeFrames fs ++ t) = true := by
  unfold verifyScanOutOfBounds
  have hfuel : fs.length ≤ (encodeFrames fs ++ t).length + 1 := by
    have := length_encodeFrames_ge fs
    simp only [List.length_append]
    omega
  obtain ⟨acc', hacc⟩ := verifyLoopAcc_frames fs [] t [] false
    ((encodeFrames fs ++ t).length + 1) hval hfit hfuel
  simp only [List.nil_append, List.length_nil, Nat.zero_add] at hacc
  rw [hacc]
  obtain ⟨n, hn⟩ : ∃ n,
      (encodeFrames fs ++ t).length + 1 - fs.length = n + 1 := by
    have h1 := length_encodeFrames_ge fs
    refine ⟨(encodeFrames fs ++ t).length - fs.length, ?_⟩
    simp only [List.length_append]
    omega
  rw [hn]
  apply verifyLoopAcc_oob_hit
  · simp only [List.length_append]
    omega
  · simp only [List.length_append] at htrunc ⊢
    omega

/-- Witness for C10: a one-byte file (a truncated record) makes the scan
read out of bounds. -/
theorem c10_witness : verifyScanOutOfBounds [0] = true := by
  have h := c10_truncated_tail_reads_out_of_bounds [] [0]
    (by intro f hf; cases hf) (by intro f hf; cases hf)
    (by norm_num) (by decide)
  simpa [encodeFrames] using h

end Bitcesque
